import Mathlib

/-!
Verification development for the bytree worktree manager.

The source is a small TypeScript program (src/lib/git.ts) driving git
subprocesses, the filesystem, and the Bun glob library. We embed it
shallowly: JavaScript string operations become executable functions on
`List Char`; the filesystem and git bookkeeping become explicit state
records; subprocess results that a function consumes become explicit
parameters; fallible operations return `Except`. Each definition mirrors
the source function of the same name.
-/

namespace Bytree

/-- Decidable equality for Except, used to evaluate the embedded
fallible operations on concrete inputs. -/
instance {ε α : Type} [DecidableEq ε] [DecidableEq α] :
    DecidableEq (Except ε α) := fun x y =>
  match x, y with
  | .ok a, .ok b =>
    if h : a = b then .isTrue (by rw [h]) else .isFalse (by simp [h])
  | .error a, .error b =>
    if h : a = b then .isTrue (by rw [h]) else .isFalse (by simp [h])
  | .ok _, .error _ => .isFalse (by simp)
  | .error _, .ok _ => .isFalse (by simp)

/-- Convert a string literal to its character list. -/
def cl (s : String) : List Char := s.toList

/-- Model of the JavaScript method s.includes(pat): substring containment. -/
def includesCL (s pat : List Char) : Bool :=
  match s with
  | [] => pat.isEmpty
  | _ :: cs => List.isPrefixOf pat s || includesCL cs pat

/-- Model of the JavaScript method s.replace(pat, ""): removes the FIRST
occurrence of pat (JavaScript string replace with a string argument only
replaces the first match), or returns s unchanged when pat does not occur. -/
def replaceFirst (s pat : List Char) : List Char :=
  match s with
  | [] => []
  | c :: cs =>
    if List.isPrefixOf pat (c :: cs) then (c :: cs).drop pat.length
    else c :: replaceFirst cs pat

/-- Model of the JavaScript method s.trim(): drop whitespace at both ends. -/
def trimCL (s : List Char) : List Char :=
  ((s.dropWhile Char.isWhitespace).reverse.dropWhile Char.isWhitespace).reverse

/-- Split a character list on a separator character, JavaScript
s.split(sep) style: n separators yield n+1 (possibly empty) fields. -/
def splitOnChar (sep : Char) : List Char → List (List Char)
  | [] => [[]]
  | c :: cs =>
    if c = sep then [] :: splitOnChar sep cs
    else
      match splitOnChar sep cs with
      | [] => [[c]]
      | l :: ls => (c :: l) :: ls

/-- Model of the JavaScript split on a newline, content.split(sep) with
sep the newline character. -/
def splitNl (s : List Char) : List (List Char) := splitOnChar '\n' s

/-- Per-line filter of getExcludePatterns: trim the line, drop it when it
is empty or is a comment line. Mirrors the loop body at
src/unnamed/part_000 lines 170-177. -/
def keepLine (line : List Char) : Option (List Char) :=
  let t := trimCL line
  if t.isEmpty || List.isPrefixOf ['#'] t then none else some t

/-- Embedding of getExcludePatterns (src/unnamed/part_000 lines 160-180).
The exclude file content is passed explicitly: `none` models a missing
file (the existsSync guard), `some content` the file text. -/
def getExcludePatterns (file : Option (List Char)) : List (List Char) :=
  match file with
  | none => []
  | some content => (splitNl content).filterMap keepLine

/-!
Glob matching. The source delegates matching to the Bun glob library
over the repository tree; the patterns the tool produces use only
literal characters, the single-segment wildcard, and the recursive
globstar segment, so we model that fragment. A scanned relative path is
a list of path segments, each a list of characters.
-/

/-- A path relative to the repository root, as a list of segments. -/
abbrev RelPath := List (List Char)

/-- Match one glob segment against one path segment. A star matches any
run of characters (the scan is invoked with dotfiles included, so there
is no special case for leading dots); other characters match literally. -/
def segMatch : List Char → List Char → Bool
  | [], cs => cs.isEmpty
  | p :: ps, cs =>
    if p = '*' then cs.tails.any (fun r => segMatch ps r)
    else
      match cs with
      | [] => false
      | c :: cs2 => (p == c) && segMatch ps cs2

/-- Match a list of glob segments against the segments of a path. A
globstar segment matches any number (including zero) of path segments. -/
def matchSegs : List (List Char) → RelPath → Bool
  | [], qs => qs.isEmpty
  | p :: ps, qs =>
    if p = ['*', '*'] then qs.tails.any (fun r => matchSegs ps r)
    else
      match qs with
      | [] => false
      | q :: qs2 => segMatch p q && matchSegs ps qs2

/-- Whether a glob pattern matches a relative path: split the pattern on
the path separator and match segmentwise. -/
def globMatch (pat : List Char) (f : RelPath) : Bool :=
  matchSegs (splitOnChar '/' pat) f

/-- Per-pattern transform of findExcludedFiles (src/unnamed/part_000
lines 193-202): strip one leading slash, and turn a trailing slash
(directory pattern) into a recursive wildcard suffix. -/
def transformPat (p : List Char) : List Char :=
  let p1 := if List.isPrefixOf ['/'] p then p.drop 1 else p
  if List.isSuffixOf ['/'] p1 then p1 ++ cl "**/*" else p1

/-- Deduplication keeping first occurrences, with an accumulator of the
elements already seen. -/
def dedupAux {α : Type} [DecidableEq α] (seen : List α) : List α → List α
  | [] => []
  | a :: l => if a ∈ seen then dedupAux seen l else a :: dedupAux (a :: seen) l

/-- Model of the JavaScript idiom spreading a Set built from a list:
deduplicate, keeping the first occurrence of each element in order. -/
def dedupKeepFirst {α : Type} [DecidableEq α] (l : List α) : List α :=
  dedupAux [] l

/-- Embedding of the pattern loop of findExcludedFiles
(src/unnamed/part_000 lines 185-218), parametric in the environment:
`valid` models which pattern strings the Bun glob constructor accepts
(an invalid one throws, and the catch skips that pattern), `scanFS` is
the list of files the glob scan enumerates, and `liveFS` is the set of
paths that exist when existsSync runs (the two differ when a file is
deleted between enumeration and check). -/
def findExcludedFiles (valid : List Char → Bool) (scanFS liveFS : List RelPath)
    (rawPats : List (List Char)) : List RelPath :=
  if rawPats.isEmpty then []
  else
    dedupKeepFirst
      (rawPats.foldl
        (fun acc rawp =>
          let p := transformPat rawp
          if valid p then
            acc ++ scanFS.filter (fun f => globMatch p f && decide (f ∈ liveFS))
          else acc)
        [])

/-- Concatenation of the lists produced for each element, used to state
what the scan loop of findExcludedFiles accumulates. -/
def concatMap {α β : Type} (h : β → List α) : List β → List α
  | [] => []
  | b :: l => h b ++ concatMap h l

/-- Contribution of one raw pattern to the scan loop of
findExcludedFiles: the matching existing files when the transformed
pattern is a valid glob, nothing otherwise. -/
def matchesOf (valid : List Char → Bool) (scanFS liveFS : List RelPath)
    (rawp : List Char) : List RelPath :=
  let p := transformPat rawp
  if valid p then
    scanFS.filter (fun f => globMatch p f && decide (f ∈ liveFS))
  else []

/-!
Default branch detection. getDefaultBranch (src/unnamed/part_000 lines
117-131) runs two git subprocesses; their results are explicit
parameters here. The symbolic-ref query may fail (the try/catch around
it), so it is an Except; the branch listing query is likewise an Except,
and a failure of it inside the catch block would propagate (in a
repository it always exits successfully and yields the listing text).
-/

/-- Branch-name extraction of the success path: trim the subprocess
output and remove the first occurrence of the remote ref namespace,
mirroring ref.trim and the JavaScript replace call. -/
def stripSymRef (t : List Char) : List Char :=
  replaceFirst (trimCL t) (cl "refs/remotes/origin/")

/-- Embedding of getDefaultBranch. The first argument is the result of
the symbolic-ref subprocess, the second the result of the remote branch
listing subprocess consulted in the catch block. -/
def getDefaultBranch (symref : Except Unit (List Char))
    (listing : Except Unit (List Char)) : Except Unit (List Char) :=
  match symref with
  | .ok t => .ok (stripSymRef t)
  | .error _ =>
    match listing with
    | .error e => .error e
    | .ok bl =>
      if includesCL bl (cl "origin/main") then .ok (cl "main")
      else if includesCL bl (cl "origin/master") then .ok (cl "master")
      else .ok (cl "main")

/-!
Replication. copyExcludedFiles (src/unnamed/part_000 lines 252-272)
loops over the resolved set; each iteration runs a recursive mkdir of
the destination parent and then a recursive copy. We record the
filesystem operations performed in the destination, and model per-entry
copy failure by a predicate: the cp subprocess throwing aborts the loop
and the error propagates to the caller, which reports the replication
as failed.
-/

/-- Error of an aborted replication. -/
inductive CopyFailure
  | replicationFailed
deriving DecidableEq

/-- A filesystem write performed in the destination worktree: the
recursive mkdir of the parent of an entry, or the recursive copy of an
entry. -/
inductive FsOp
  | mkdirp (f : RelPath)
  | copy (f : RelPath)
deriving DecidableEq

/-- Loop of copyExcludedFiles with the accumulated copied list. Each
iteration first performs the mkdir, then attempts the copy: when the
copy of an entry fails the loop aborts, leaving the remaining entries
untouched, and the error surfaces. -/
def copyLoop (fails : RelPath → Bool) :
    List RelPath → List RelPath → List FsOp × Except CopyFailure (List RelPath)
  | [], copied => ([], .ok copied.reverse)
  | f :: fs, copied =>
    if fails f then ([FsOp.mkdirp f], .error CopyFailure.replicationFailed)
    else
      let rest := copyLoop fails fs (f :: copied)
      (FsOp.mkdirp f :: FsOp.copy f :: rest.1, rest.2)

/-- Embedding of copyExcludedFiles: takes the resolved exclusion set and
the copy-failure environment, returns the destination writes performed
and either the list of paths actually copied or the replication error. -/
def copyExcludedFiles (fails : RelPath → Bool) (excludedFiles : List RelPath) :
    List FsOp × Except CopyFailure (List RelPath) :=
  copyLoop fails excludedFiles []

/-!
Registry view. listMyWorktrees (src/unnamed/part_000 lines 277-300)
parses the porcelain worktree listing text line by line, tracking the
most recently seen worktree path and emitting a pair for each branch
line whose branch carries the tool prefix.
-/

/-- Line loop of listMyWorktrees, with the current worktree path as the
fold state. A worktree line updates the path; a branch line strips the
ref namespace and emits a pair when the branch carries the tool prefix. -/
def lmwLoop : List (List Char) → List Char → List (List Char × List Char)
  | [], _ => []
  | line :: rest, cur =>
    if List.isPrefixOf (cl "worktree ") line then
      lmwLoop rest (replaceFirst line (cl "worktree "))
    else if List.isPrefixOf (cl "branch ") line then
      let b := replaceFirst line (cl "branch refs/heads/")
      if List.isPrefixOf (cl "bytree/") b then
        (cur, b) :: lmwLoop rest cur
      else lmwLoop rest cur
    else lmwLoop rest cur

/-- Embedding of listMyWorktrees over the porcelain listing text. -/
def listMyWorktrees (output : List Char) : List (List Char × List Char) :=
  lmwLoop (splitNl output) []

/-!
Worktree provisioning. createWorktree (src/unnamed/part_000 lines
223-247) mutates git bookkeeping and the filesystem through
subprocesses. We model that shared state explicitly: the registered
worktrees, the existing branches, and the directories present on disk
(a worktree checkout is a nonempty directory at its path). The forced
removal steps never throw (the source marks them nothrow); the final
worktree add is the authoritative operation and fails when the branch
already exists, the target path is occupied, or the base ref is absent.
-/

/-- Error of a failed worktree add. -/
inductive GitFailure
  | worktreeCreationFailed
deriving DecidableEq

/-- A registered worktree: filesystem path and checked-out branch. -/
structure Worktree where
  path : String
  branch : String
deriving DecidableEq

/-- Shared repository state touched by the provisioner: git worktree
registrations, branches, and directories existing on disk. -/
structure GitState where
  worktrees : List Worktree
  branches : List String
  dirs : List String
deriving DecidableEq

/-- Model of mkdir -p: create the directory if it is not there. -/
def mkdirp (d : String) (st : GitState) : GitState :=
  if d ∈ st.dirs then st else { st with dirs := st.dirs ++ [d] }

/-- Model of git worktree remove --force at a path: drop the
registration and delete the checkout directory. Best effort, no error. -/
def worktreeRemove (p : String) (st : GitState) : GitState :=
  { st with
    worktrees := st.worktrees.filter (fun w => !(w.path == p)),
    dirs := st.dirs.erase p }

/-- Model of git branch -D: delete the branch. Best effort, no error. -/
def branchDelete (b : String) (st : GitState) : GitState :=
  { st with branches := st.branches.erase b }

/-- Model of git worktree add -b branch path base: fails when the branch
exists, the path is an existing directory, or the base ref is missing;
otherwise registers the worktree, creates the branch and the checkout. -/
def worktreeAdd (branch p base : String) (st : GitState) :
    Except GitFailure GitState :=
  if branch ∈ st.branches ∨ p ∈ st.dirs ∨ base ∉ st.branches then
    .error GitFailure.worktreeCreationFailed
  else
    .ok { worktrees := st.worktrees ++ [⟨p, branch⟩],
          branches := st.branches ++ [branch],
          dirs := st.dirs ++ [p] }

/-- Embedding of createWorktree: build the branch name and target path,
ensure the parent directory exists, and when the target path already
exists on disk forcibly remove the prior worktree and forcibly delete
the prior branch before the authoritative worktree add. -/
def createWorktree (worktreeBase name baseBranch : String) (st : GitState) :
    Except GitFailure (GitState × Worktree) :=
  let branch := "bytree/" ++ name
  let wtPath := worktreeBase ++ "/" ++ name
  let st1 := mkdirp worktreeBase st
  let st2 :=
    if wtPath ∈ st1.dirs then branchDelete branch (worktreeRemove wtPath st1)
    else st1
  match worktreeAdd branch wtPath baseBranch st2 with
  | .ok st3 => .ok (st3, ⟨wtPath, branch⟩)
  | .error e => .error e

/-!
Theorems. Helper lemmas come first; each claim then gets one theorem,
with a witness instantiation when the theorem carries hypotheses.
-/

/-- Pushing keepLine through filterMap is filtering the trimmed lines. -/
lemma filterMap_keepLine (l : List (List Char)) :
    l.filterMap keepLine =
      (l.map trimCL).filter
        (fun t => !(t.isEmpty || List.isPrefixOf ['#'] t)) := by
  induction l with
  | nil => rfl
  | cons a l ih =>
    cases hIs : (trimCL a).isEmpty <;>
      cases hPre : List.isPrefixOf ['#'] (trimCL a) <;>
        simp [List.filterMap_cons, keepLine, hIs, hPre, ih]

/-- Claim C5: for every repository, getExcludePatterns returns exactly
the trimmed, non-empty, non-comment lines of the local ignore-pattern
file in file order; a file containing the pattern line, a comment line
and empty lines parses to exactly that one pattern; a missing file
yields an empty list without error. -/
theorem getExcludePatterns_spec :
    getExcludePatterns none = [] ∧
    getExcludePatterns (some (cl "/.claude/\n# comment\n\n")) =
      [cl "/.claude/"] ∧
    ∀ c, getExcludePatterns (some c) =
      ((splitNl c).map trimCL).filter
        (fun t => !(t.isEmpty || List.isPrefixOf ['#'] t)) := by
  refine ⟨rfl, by decide, ?_⟩
  intro c
  exact filterMap_keepLine (splitNl c)

/-- Claim C3: getDefaultBranch never raises when the repository yields a
branch listing: the symbolic HEAD result is preferred when it succeeds,
any failure of it falls back to scanning the listing for a main or
master name, and the result defaults to main when neither occurs. -/
theorem getDefaultBranch_total (symref : Except Unit (List Char))
    (bl : List Char) :
    (∃ b, getDefaultBranch symref (.ok bl) = .ok b) ∧
    (∀ t, symref = .ok t →
      getDefaultBranch symref (.ok bl) = .ok (stripSymRef t)) ∧
    (symref = .error () →
      (getDefaultBranch symref (.ok bl) = .ok (cl "main") ∨
       getDefaultBranch symref (.ok bl) = .ok (cl "master"))) ∧
    (symref = .error () →
      includesCL bl (cl "origin/main") = false →
      includesCL bl (cl "origin/master") = false →
      getDefaultBranch symref (.ok bl) = .ok (cl "main")) := by
  cases symref with
  | ok t =>
    refine ⟨⟨stripSymRef t, rfl⟩, ?_, ?_, ?_⟩
    · intro s hs
      injection hs with h
      rw [h]
      rfl
    · intro h; simp at h
    · intro h _ _; simp at h
  | error e =>
    refine ⟨?_, ?_, ?_, ?_⟩
    · by_cases h1 : includesCL bl (cl "origin/main") = true
      · exact ⟨cl "main", by simp [getDefaultBranch, h1]⟩
      · by_cases h2 : includesCL bl (cl "origin/master") = true
        · exact ⟨cl "master", by simp [getDefaultBranch, h1, h2]⟩
        · exact ⟨cl "main", by simp [getDefaultBranch, h1, h2]⟩
    · intro s hs; simp at hs
    · intro _
      by_cases h1 : includesCL bl (cl "origin/main") = true
      · exact .inl (by simp [getDefaultBranch, h1])
      · by_cases h2 : includesCL bl (cl "origin/master") = true
        · exact .inr (by simp [getDefaultBranch, h1, h2])
        · exact .inl (by simp [getDefaultBranch, h1, h2])
    · intro _ h1 h2
      simp [getDefaultBranch, h1, h2]

/-- Witness for C3 at a concrete no-remote listing: the fallback returns
main rather than raising. -/
theorem getDefaultBranch_total_witness :
    getDefaultBranch (.error ()) (.ok (cl "  origin/hotfix\n")) =
      .ok (cl "main") :=
  (getDefaultBranch_total (.error ()) (cl "  origin/hotfix\n")).2.2.2
    rfl (by decide) (by decide)

/-- Claim C10: the fallback of getDefaultBranch decides by substring
containment over the whole listing text: any occurrence of the main
remote name, even inside a longer branch name, yields main without
checking that such a branch exists exactly, and the master name is
consulted only when the main name is absent. -/
theorem getDefaultBranch_substring (bl bl2 : List Char)
    (h1 : includesCL bl (cl "origin/main") = true)
    (h2 : includesCL bl2 (cl "origin/main") = false)
    (h3 : includesCL bl2 (cl "origin/master") = true) :
    getDefaultBranch (.error ()) (.ok bl) = .ok (cl "main") ∧
    getDefaultBranch (.error ()) (.ok bl2) = .ok (cl "master") ∧
    getDefaultBranch (.error ()) (.ok (cl "  origin/main-old\n")) =
      .ok (cl "main") := by
  refine ⟨by simp [getDefaultBranch, h1], by simp [getDefaultBranch, h2, h3],
    by decide⟩

/-- Witness for C10: a listing whose only main-like branch is a longer
name still yields main, and a master-only listing yields master. -/
theorem getDefaultBranch_substring_witness :
    getDefaultBranch (.error ()) (.ok (cl "  origin/main-old\n")) =
      .ok (cl "main") ∧
    getDefaultBranch (.error ()) (.ok (cl "  origin/master\n")) =
      .ok (cl "master") :=
  ⟨(getDefaultBranch_substring (cl "  origin/main-old\n")
      (cl "  origin/master\n") (by decide) (by decide) (by decide)).1,
   (getDefaultBranch_substring (cl "  origin/main-old\n")
      (cl "  origin/master\n") (by decide) (by decide) (by decide)).2.1⟩

/-- When no entry of the list fails, the copy loop copies everything in
order, performing the mkdir and copy of each entry. -/
lemma copyLoop_ok (fails : RelPath → Bool) :
    ∀ (files copied : List RelPath), (∀ f ∈ files, fails f = false) →
      copyLoop fails files copied =
        (concatMap (fun f => [FsOp.mkdirp f, FsOp.copy f]) files,
         .ok (copied.reverse ++ files)) := by
  intro files
  induction files with
  | nil => intro copied _; simp [copyLoop, concatMap]
  | cons f fs ih =>
    intro copied hok
    have hf : fails f = false := hok f (List.mem_cons_self f fs)
    have hr := ih (f :: copied) (fun g hg => hok g (List.mem_cons_of_mem f hg))
    simp [copyLoop, hf, hr, concatMap]

/-- When the copy of one entry fails, the loop performs exactly the
writes of the preceding entries plus the mkdir of the failing entry,
touches none of the later entries, and surfaces the error. -/
lemma copyLoop_abort (fails : RelPath → Bool) (bad : RelPath)
    (post : List RelPath) (hbad : fails bad = true) :
    ∀ (pre copied : List RelPath), (∀ f ∈ pre, fails f = false) →
      copyLoop fails (pre ++ bad :: post) copied =
        (concatMap (fun f => [FsOp.mkdirp f, FsOp.copy f]) pre ++
          [FsOp.mkdirp bad],
         .error CopyFailure.replicationFailed) := by
  intro pre
  induction pre with
  | nil => intro copied _; simp [copyLoop, hbad, concatMap]
  | cons f fs ih =>
    intro copied hok
    have hf : fails f = false := hok f (List.mem_cons_self f fs)
    have hr := ih (f :: copied) (fun g hg => hok g (List.mem_cons_of_mem f hg))
    simp [copyLoop, hf, hr, concatMap]

/-- Claim C7: a failure copying one entry aborts the remaining copies
and surfaces as the replication error, and when no copy fails the
function returns exactly the list of paths actually copied. -/
theorem copyExcludedFiles_spec (fails : RelPath → Bool)
    (pre : List RelPath) (bad : RelPath) (post : List RelPath)
    (files : List RelPath)
    (hpre : ∀ f ∈ pre, fails f = false) (hbad : fails bad = true)
    (hfiles : ∀ f ∈ files, fails f = false) :
    copyExcludedFiles fails (pre ++ bad :: post) =
      (concatMap (fun f => [FsOp.mkdirp f, FsOp.copy f]) pre ++
        [FsOp.mkdirp bad],
       .error CopyFailure.replicationFailed) ∧
    copyExcludedFiles fails files =
      (concatMap (fun f => [FsOp.mkdirp f, FsOp.copy f]) files,
       .ok files) := by
  constructor
  · exact copyLoop_abort fails bad post hbad pre [] hpre
  · have h := copyLoop_ok fails files [] hfiles
    simpa [copyExcludedFiles] using h

/-- Witness for C7: with the middle of three entries failing, the first
entry is copied, the third is never touched, and the error surfaces;
with no failures both entries are reported copied. -/
theorem copyExcludedFiles_spec_witness :
    copyExcludedFiles (fun f => f == [cl "b"])
        ([[cl "a"]] ++ [cl "b"] :: [[cl "c"]]) =
      (concatMap (fun f => [FsOp.mkdirp f, FsOp.copy f]) [[cl "a"]] ++
        [FsOp.mkdirp [cl "b"]],
       .error CopyFailure.replicationFailed) ∧
    copyExcludedFiles (fun f => f == [cl "b"]) [[cl "a"], [cl "c"]] =
      (concatMap (fun f => [FsOp.mkdirp f, FsOp.copy f]) [[cl "a"], [cl "c"]],
       .ok [[cl "a"], [cl "c"]]) :=
  copyExcludedFiles_spec (fun f => f == [cl "b"]) [[cl "a"]] [cl "b"]
    [[cl "c"]] [[cl "a"], [cl "c"]] (by decide) (by decide) (by decide)

/-- Claim C9: when the resolved exclusion set is empty, for example when
no pattern matches, copyExcludedFiles returns an empty list without
error and performs no filesystem writes in the destination worktree. -/
theorem copyExcludedFiles_empty (valid : List Char → Bool)
    (scanFS liveFS : List RelPath) (rawPats : List (List Char))
    (fails : RelPath → Bool)
    (h : findExcludedFiles valid scanFS liveFS rawPats = []) :
    copyExcludedFiles fails (findExcludedFiles valid scanFS liveFS rawPats) =
      ([], .ok []) := by
  rw [h]
  rfl

/-- Witness for C9: a repository whose only pattern matches nothing on
disk resolves to the empty set, and replication then writes nothing. -/
theorem copyExcludedFiles_empty_witness :
    copyExcludedFiles (fun _ => false)
      (findExcludedFiles (fun _ => true) [[cl "src"]] [[cl "src"]]
        [cl "/foo/"]) = ([], .ok []) :=
  copyExcludedFiles_empty (fun _ => true) [[cl "src"]] [[cl "src"]]
    [cl "/foo/"] (fun _ => false) (by decide)

/-- Every pair the listing loop emits carries a branch with the tool
prefix, whatever the current path is. -/
lemma lmwLoop_tool (lines : List (List Char)) :
    ∀ cur pr, pr ∈ lmwLoop lines cur →
      List.isPrefixOf (cl "bytree/") pr.2 = true := by
  induction lines with
  | nil => intro cur pr h; simp [lmwLoop] at h
  | cons line rest ih =>
    intro cur pr h
    simp only [lmwLoop] at h
    split at h
    · exact ih _ _ h
    · split at h
      · split at h
        · rcases List.mem_cons.mp h with h1 | h1
          · rw [h1]
            assumption
          · exact ih _ _ h1
        · exact ih _ _ h
      · exact ih _ _ h

/-- Claim C6: listMyWorktrees returns exactly the path and branch pairs
of the porcelain worktree listing whose branch carries the tool prefix,
pairing each branch line with the most recently seen worktree path, and
never returns an entry for an unrelated worktree. -/
theorem listMyWorktrees_spec (output : List Char)
    (pr : List Char × List Char) (h : pr ∈ listMyWorktrees output) :
    List.isPrefixOf (cl "bytree/") pr.2 = true ∧
    listMyWorktrees
        (cl ("worktree /repo\nHEAD aaa\nbranch refs/heads/main\n\n" ++
          "worktree /repo-bytree/x\nHEAD bbb\nbranch refs/heads/bytree/x\n\n" ++
          "worktree /repo-bytree/y\nHEAD ccc\nbranch refs/heads/bytree/y\n")) =
      [(cl "/repo-bytree/x", cl "bytree/x"),
       (cl "/repo-bytree/y", cl "bytree/y")] := by
  exact ⟨lmwLoop_tool _ _ _ h, by decide⟩

/-- Witness for C6 on a listing holding a main worktree and two tool
worktrees: the emitted pairs carry the tool prefix and each branch is
paired with the worktree path most recently seen before it. -/
theorem listMyWorktrees_spec_witness :
    List.isPrefixOf (cl "bytree/")
      (cl "/repo-bytree/x", cl "bytree/x").2 = true ∧
    listMyWorktrees
        (cl ("worktree /repo\nHEAD aaa\nbranch refs/heads/main\n\n" ++
          "worktree /repo-bytree/x\nHEAD bbb\nbranch refs/heads/bytree/x\n\n" ++
          "worktree /repo-bytree/y\nHEAD ccc\nbranch refs/heads/bytree/y\n")) =
      [(cl "/repo-bytree/x", cl "bytree/x"),
       (cl "/repo-bytree/y", cl "bytree/y")] :=
  listMyWorktrees_spec
    (cl ("worktree /repo\nHEAD aaa\nbranch refs/heads/main\n\n" ++
      "worktree /repo-bytree/x\nHEAD bbb\nbranch refs/heads/bytree/x\n\n" ++
      "worktree /repo-bytree/y\nHEAD ccc\nbranch refs/heads/bytree/y\n"))
    (cl "/repo-bytree/x", cl "bytree/x") (by decide)

/-- Membership in the deduplication loop: an element appears exactly
when it occurs in the remaining input and was not already seen. -/
lemma mem_dedupAux {α : Type} [DecidableEq α] (l : List α) :
    ∀ (seen : List α) (a : α),
      a ∈ dedupAux seen l ↔ a ∈ l ∧ a ∉ seen := by
  induction l with
  | nil => intro seen a; simp [dedupAux]
  | cons b l ih =>
    intro seen a
    by_cases hb : b ∈ seen
    · rw [dedupAux, if_pos hb, ih]
      constructor
      · rintro ⟨h1, h2⟩
        exact ⟨List.mem_cons_of_mem b h1, h2⟩
      · rintro ⟨h1, h2⟩
        rcases List.mem_cons.mp h1 with h3 | h3
        · exact absurd (h3 ▸ hb) h2
        · exact ⟨h3, h2⟩
    · rw [dedupAux, if_neg hb]
      constructor
      · intro hmem
        rcases List.mem_cons.mp hmem with h1 | h1
        · exact ⟨h1 ▸ List.mem_cons_self b l, by rw [h1]; exact hb⟩
        · rcases (ih (b :: seen) a).mp h1 with ⟨h2, h3⟩
          exact ⟨List.mem_cons_of_mem b h2,
            fun hs => h3 (List.mem_cons_of_mem b hs)⟩
      · rintro ⟨h1, h2⟩
        rcases List.mem_cons.mp h1 with h3 | h3
        · exact h3 ▸ List.mem_cons_self b _
        · by_cases hab : a = b
          · exact hab ▸ List.mem_cons_self b _
          · exact List.mem_cons_of_mem b ((ih (b :: seen) a).mpr
              ⟨h3, fun hs => (List.mem_cons.mp hs).elim hab h2⟩)

/-- The deduplication loop emits no duplicates. -/
lemma nodup_dedupAux {α : Type} [DecidableEq α] (l : List α) :
    ∀ seen : List α, (dedupAux seen l).Nodup := by
  induction l with
  | nil => intro seen; simp [dedupAux]
  | cons b l ih =>
    intro seen
    by_cases hb : b ∈ seen
    · rw [dedupAux, if_pos hb]
      exact ih seen
    · rw [dedupAux, if_neg hb]
      refine List.nodup_cons.mpr ⟨?_, ih (b :: seen)⟩
      intro hmem
      exact ((mem_dedupAux l (b :: seen) b).mp hmem).2
        (List.mem_cons_self b seen)

/-- Deduplication preserves membership. -/
lemma mem_dedupKeepFirst {α : Type} [DecidableEq α] (l : List α) (a : α) :
    a ∈ dedupKeepFirst l ↔ a ∈ l := by
  simp [dedupKeepFirst, mem_dedupAux]

/-- Membership in a concatenation of per-element lists. -/
lemma mem_concatMap {α β : Type} (h : β → List α) (l : List β) (a : α) :
    a ∈ concatMap h l ↔ ∃ b ∈ l, a ∈ h b := by
  induction l with
  | nil => simp [concatMap]
  | cons b l ih => simp [concatMap, ih, List.mem_append]

/-- Concatenation of per-element lists over an appended input. -/
lemma concatMap_append {α β : Type} (h : β → List α) (l1 l2 : List β) :
    concatMap h (l1 ++ l2) = concatMap h l1 ++ concatMap h l2 := by
  induction l1 with
  | nil => simp [concatMap]
  | cons b l ih => simp [concatMap, ih]

/-- Accumulating fold of the scan loop, expressed as a concatenation. -/
lemma foldl_append_concatMap {α β : Type} (h : β → List α) (l : List β) :
    ∀ init : List α,
      l.foldl (fun acc b => acc ++ h b) init = init ++ concatMap h l := by
  induction l with
  | nil => intro init; simp [concatMap]
  | cons b l ih => intro init; simp [List.foldl_cons, ih, concatMap]

/-- The scan loop of findExcludedFiles accumulates exactly the
per-pattern contributions, in pattern order. -/
lemma findExcludedFiles_eq (valid : List Char → Bool)
    (scanFS liveFS : List RelPath) (rawPats : List (List Char)) :
    findExcludedFiles valid scanFS liveFS rawPats =
      if rawPats.isEmpty then []
      else dedupKeepFirst (concatMap (matchesOf valid scanFS liveFS) rawPats) := by
  unfold findExcludedFiles
  by_cases he : rawPats.isEmpty
  · simp [he]
  · simp only [he, if_false]
    have hfun :
        (fun (acc : List RelPath) rawp =>
          let p := transformPat rawp
          if valid p then
            acc ++ scanFS.filter (fun f => globMatch p f && decide (f ∈ liveFS))
          else acc) =
        fun (acc : List RelPath) rawp =>
          acc ++ matchesOf valid scanFS liveFS rawp := by
      funext acc rawp
      by_cases hv : valid (transformPat rawp) = true
      · simp [matchesOf, hv]
      · simp [matchesOf, hv]
    rw [hfun, foldl_append_concatMap]
    rfl

/-- Contribution of one pattern, characterized by membership. -/
lemma mem_matchesOf (valid : List Char → Bool)
    (scanFS liveFS : List RelPath) (rawp : List Char) (f : RelPath) :
    f ∈ matchesOf valid scanFS liveFS rawp ↔
      valid (transformPat rawp) = true ∧
      globMatch (transformPat rawp) f = true ∧ f ∈ scanFS ∧ f ∈ liveFS := by
  by_cases hv : valid (transformPat rawp) = true
  · simp [matchesOf, hv, List.mem_filter, and_assoc, and_comm]
    tauto
  · simp [matchesOf, hv]

/-- Membership in the resolved exclusion set: a path is returned exactly
when some raw pattern transforms to a valid glob matching it, the scan
enumerates it, and it still exists at check time. -/
lemma mem_findExcludedFiles (valid : List Char → Bool)
    (scanFS liveFS : List RelPath) (rawPats : List (List Char)) (f : RelPath) :
    f ∈ findExcludedFiles valid scanFS liveFS rawPats ↔
      ∃ p ∈ rawPats, valid (transformPat p) = true ∧
        globMatch (transformPat p) f = true ∧ f ∈ scanFS ∧ f ∈ liveFS := by
  rw [findExcludedFiles_eq]
  by_cases he : rawPats.isEmpty
  · have : rawPats = [] := by
      cases rawPats with
      | nil => rfl
      | cons a l => simp at he
    simp [he, this]
  · rw [if_neg he]
    simp only [mem_dedupKeepFirst, mem_concatMap, mem_matchesOf]

/-- Claim C4: every path in the set returned by findExcludedFiles exists
on disk at scan time, so a path matched by a pattern but deleted before
the existence check is absent from the result. -/
theorem findExcludedFiles_live (valid : List Char → Bool)
    (scanFS liveFS : List RelPath) (rawPats : List (List Char)) (f : RelPath)
    (h : f ∈ findExcludedFiles valid scanFS liveFS rawPats) :
    f ∈ liveFS ∧
    ∀ g : RelPath, g ∉ liveFS →
      g ∉ findExcludedFiles valid scanFS liveFS rawPats := by
  constructor
  · rcases (mem_findExcludedFiles valid scanFS liveFS rawPats f).mp h
      with ⟨p, _, _, _, _, hlive⟩
    exact hlive
  · intro g hg hmem
    rcases (mem_findExcludedFiles valid scanFS liveFS rawPats g).mp hmem
      with ⟨p, _, _, _, _, hlive⟩
    exact hg hlive

/-- Witness for C4: the file enumerated by the scan but deleted before
the existence check is absent, while the surviving file is returned. -/
theorem findExcludedFiles_live_witness :
    [cl "foo", cl "a"] ∈
      findExcludedFiles (fun _ => true)
        [[cl "foo", cl "a"], [cl "foo", cl "gone"]]
        [[cl "foo", cl "a"]] [cl "/foo/"] ∧
    [cl "foo", cl "gone"] ∉
      findExcludedFiles (fun _ => true)
        [[cl "foo", cl "a"], [cl "foo", cl "gone"]]
        [[cl "foo", cl "a"]] [cl "/foo/"] := by
  refine ⟨by decide, ?_⟩
  exact (findExcludedFiles_live (fun _ => true)
    [[cl "foo", cl "a"], [cl "foo", cl "gone"]]
    [[cl "foo", cl "a"]] [cl "/foo/"] [cl "foo", cl "a"] (by decide)).2
    [cl "foo", cl "gone"] (by decide)

/-- Claim C8: a raw pattern whose transform is not a valid glob
contributes nothing and is skipped without aborting the remaining
patterns, and the final result is the deduplicated union of the
per-pattern matches, each matched file appearing once. -/
theorem findExcludedFiles_skip (valid : List Char → Bool)
    (scanFS liveFS : List RelPath) (pats1 pats2 : List (List Char))
    (bad : List Char) (hbad : valid (transformPat bad) = false) :
    findExcludedFiles valid scanFS liveFS (pats1 ++ bad :: pats2) =
      findExcludedFiles valid scanFS liveFS (pats1 ++ pats2) ∧
    (findExcludedFiles valid scanFS liveFS (pats1 ++ bad :: pats2)).Nodup ∧
    ∀ f : RelPath,
      f ∈ findExcludedFiles valid scanFS liveFS (pats1 ++ bad :: pats2) ↔
        ∃ p ∈ pats1 ++ pats2, valid (transformPat p) = true ∧
          globMatch (transformPat p) f = true ∧ f ∈ scanFS ∧ f ∈ liveFS := by
  have hmz : matchesOf valid scanFS liveFS bad = [] := by
    simp [matchesOf, hbad]
  have heq : findExcludedFiles valid scanFS liveFS (pats1 ++ bad :: pats2) =
      findExcludedFiles valid scanFS liveFS (pats1 ++ pats2) := by
    rw [findExcludedFiles_eq, findExcludedFiles_eq]
    have hne : (pats1 ++ bad :: pats2).isEmpty = false := by
      cases pats1 with
      | nil => rfl
      | cons a l => rfl
    rw [hne]
    simp only [Bool.false_eq_true, if_false]
    by_cases he2 : (pats1 ++ pats2).isEmpty = true
    · have h1 : pats1 = [] := by
        cases pats1 with
        | nil => rfl
        | cons a l => simp at he2
      have h2 : pats2 = [] := by
        cases pats2 with
        | nil => rfl
        | cons a l => rw [h1] at he2; simp at he2
      rw [h1, h2]
      simp [concatMap, hmz, dedupKeepFirst, dedupAux]
    · rw [if_neg he2]
      rw [concatMap_append, concatMap_append]
      rw [show concatMap (matchesOf valid scanFS liveFS) (bad :: pats2) =
        matchesOf valid scanFS liveFS bad ++
          concatMap (matchesOf valid scanFS liveFS) pats2 from rfl]
      rw [hmz]
      rfl
  refine ⟨heq, ?_, ?_⟩
  · rw [findExcludedFiles_eq]
    by_cases he : (pats1 ++ bad :: pats2).isEmpty = true
    · rw [if_pos he]; exact List.nodup_nil
    · rw [if_neg he]; exact nodup_dedupAux _ []
  · intro f
    rw [heq]
    exact mem_findExcludedFiles valid scanFS liveFS (pats1 ++ pats2) f

/-- Witness for C8: with an invalid middle pattern, resolution equals
the resolution without it, has no duplicate entries although both
remaining patterns match the same file, and that file is returned. -/
theorem findExcludedFiles_skip_witness :
    findExcludedFiles (fun p => !(p == cl "["))
        [[cl "foo", cl "a"]] [[cl "foo", cl "a"]]
        ([cl "/foo/"] ++ cl "[" :: [cl "foo/*"]) =
      findExcludedFiles (fun p => !(p == cl "["))
        [[cl "foo", cl "a"]] [[cl "foo", cl "a"]]
        ([cl "/foo/"] ++ [cl "foo/*"]) ∧
    (findExcludedFiles (fun p => !(p == cl "["))
        [[cl "foo", cl "a"]] [[cl "foo", cl "a"]]
        ([cl "/foo/"] ++ cl "[" :: [cl "foo/*"])).Nodup ∧
    [cl "foo", cl "a"] ∈
      findExcludedFiles (fun p => !(p == cl "["))
        [[cl "foo", cl "a"]] [[cl "foo", cl "a"]]
        ([cl "/foo/"] ++ cl "[" :: [cl "foo/*"]) := by
  have h := findExcludedFiles_skip (fun p => !(p == cl "["))
    [[cl "foo", cl "a"]] [[cl "foo", cl "a"]]
    [cl "/foo/"] [cl "foo/*"] (cl "[") (by decide)
  exact ⟨h.1, h.2.1, (h.2.2 [cl "foo", cl "a"]).mpr
    ⟨cl "/foo/", by decide, by decide, by decide, by decide, by decide⟩⟩

/-- The empty glob segment list matches some suffix of any name: the
empty suffix is always available. -/
lemma tails_any_segMatch_nil (q : List Char) :
    q.tails.any (fun r => segMatch [] r) = true := by
  induction q with
  | nil => rfl
  | cons c q ih =>
    rw [List.tails_cons, List.any_cons, ih]
    simp

/-- A bare star segment matches every name. -/
lemma segMatch_star (q : List Char) : segMatch ['*'] q = true :=
  tails_any_segMatch_nil q

/-- The one-star segment list matches exactly the paths of length one. -/
lemma matchSegs_single_star (r : RelPath) :
    matchSegs [['*']] r = decide (r.length = 1) := by
  cases r with
  | nil => decide
  | cons q r2 =>
    show (segMatch ['*'] q && matchSegs [] r2) = decide ((q :: r2).length = 1)
    rw [segMatch_star, Bool.true_and]
    cases r2 with
    | nil => rfl
    | cons s r3 =>
      have hne : ¬((q :: s :: r3).length = 1) := by
        have hlen : (q :: s :: r3).length = r3.length + 2 := rfl
        omega
      rw [decide_eq_false hne]
      rfl

/-- The globstar-then-star segment list matches exactly the nonempty
paths. -/
lemma matchSegs_globstar_star (qs : RelPath) :
    matchSegs [['*', '*'], ['*']] qs = !qs.isEmpty := by
  induction qs with
  | nil => decide
  | cons q qs2 ih =>
    show (q :: qs2).tails.any (fun r => matchSegs [['*']] r) =
      !(q :: qs2).isEmpty
    rw [List.tails_cons, List.any_cons]
    have ih2 : qs2.tails.any (fun r => matchSegs [['*']] r) = !qs2.isEmpty := ih
    rw [ih2, matchSegs_single_star]
    cases qs2 with
    | nil => rfl
    | cons s r => simp

/-- A glob segment without a star matches only the identical name. -/
lemma segMatch_lit : ∀ p : List Char, '*' ∉ p → ∀ q : List Char,
    segMatch p q = decide (p = q) := by
  intro p
  induction p with
  | nil =>
    intro _ q
    cases q with
    | nil => decide
    | cons d qs =>
      show (d :: qs).isEmpty = decide (([] : List Char) = d :: qs)
      rw [decide_eq_false (by simp)]
      rfl
  | cons c ps ih =>
    intro hp q
    have hc : ¬ c = '*' := by
      intro h
      exact hp (by rw [h]; exact List.mem_cons_self _ _)
    cases q with
    | nil =>
      show (if c = '*' then
          ([] : List Char).tails.any (fun r => segMatch ps r)
        else false) = decide (c :: ps = ([] : List Char))
      rw [if_neg hc, decide_eq_false (by simp)]
    | cons d qs =>
      show (if c = '*' then
          (d :: qs).tails.any (fun r => segMatch ps r)
        else (c == d) && segMatch ps qs) = decide (c :: ps = d :: qs)
      rw [if_neg hc, ih (fun h => hp (List.mem_cons_of_mem c h)) qs]
      by_cases hcd : c = d
      · simp [hcd]
      · simp [hcd]

/-- The transformed directory pattern for foo matches exactly the paths
whose first segment is the literal foo followed by at least one more
segment. -/
lemma globMatch_dirFoo (f : RelPath) :
    globMatch (cl "foo/**/*") f = true ↔
      ∃ r : RelPath, r ≠ [] ∧ f = cl "foo" :: r := by
  have hsplit : splitOnChar '/' (cl "foo/**/*") =
      [cl "foo", ['*', '*'], ['*']] := by decide
  rw [globMatch, hsplit]
  cases f with
  | nil =>
    rw [show matchSegs [cl "foo", ['*', '*'], ['*']] [] = false from by decide]
    simp
  | cons q r =>
    show (segMatch (cl "foo") q && matchSegs [['*', '*'], ['*']] r) = true ↔ _
    rw [segMatch_lit (cl "foo") (by decide) q, matchSegs_globstar_star,
      Bool.and_eq_true]
    constructor
    · rintro ⟨h1, h2⟩
      have hq : cl "foo" = q := of_decide_eq_true h1
      refine ⟨r, ?_, by rw [hq]⟩
      cases r with
      | nil => simp at h2
      | cons s r2 => simp
    · rintro ⟨rr, h1, h2⟩
      have hq : q = cl "foo" := by injection h2
      have hr : r = rr := by injection h2
      refine ⟨?_, ?_⟩
      · rw [hq]
        simp
      · rw [hr]
        cases rr with
        | nil => exact absurd rfl h1
        | cons s r2 => rfl

/-- Claim C2: the resolver strips one leading separator and appends the
recursive wildcard suffix to a directory pattern, so the directory
pattern for foo resolves to exactly the existing scanned files under
foo, recursively, and never to a path under a sibling such as foobar. -/
theorem findExcludedFiles_dirFoo (valid : List Char → Bool)
    (scanFS liveFS : List RelPath)
    (hvalid : valid (cl "foo/**/*") = true) :
    transformPat (cl "/foo/") = cl "foo/**/*" ∧
    (∀ f : RelPath,
      f ∈ findExcludedFiles valid scanFS liveFS [cl "/foo/"] ↔
        (∃ r : RelPath, r ≠ [] ∧ f = cl "foo" :: r) ∧
          f ∈ scanFS ∧ f ∈ liveFS) ∧
    ∀ r : RelPath,
      (cl "foobar" :: r) ∉ findExcludedFiles valid scanFS liveFS [cl "/foo/"] := by
  have htr : transformPat (cl "/foo/") = cl "foo/**/*" := by decide
  have hmem : ∀ f : RelPath,
      f ∈ findExcludedFiles valid scanFS liveFS [cl "/foo/"] ↔
        (∃ r : RelPath, r ≠ [] ∧ f = cl "foo" :: r) ∧
          f ∈ scanFS ∧ f ∈ liveFS := by
    intro f
    rw [mem_findExcludedFiles]
    constructor
    · rintro ⟨p, hp, hv, hg, hs, hl⟩
      rcases List.mem_singleton.mp hp with rfl
      rw [htr] at hg
      exact ⟨(globMatch_dirFoo f).mp hg, hs, hl⟩
    · rintro ⟨hshape, hs, hl⟩
      refine ⟨cl "/foo/", List.mem_singleton.mpr rfl, ?_, ?_, hs, hl⟩
      · rw [htr]; exact hvalid
      · rw [htr]; exact (globMatch_dirFoo f).mpr hshape
  refine ⟨htr, hmem, ?_⟩
  intro r hmem2
  rcases (hmem (cl "foobar" :: r)).mp hmem2 with ⟨⟨rr, _, hshape⟩, _, _⟩
  have : cl "foobar" = cl "foo" := by
    injection hshape
  exact absurd this (by decide)

/-- Witness for C2: with both files on disk, the file under foo is
resolved and the file under the sibling foobar is not. -/
theorem findExcludedFiles_dirFoo_witness :
    transformPat (cl "/foo/") = cl "foo/**/*" ∧
    [cl "foo", cl "a"] ∈
      findExcludedFiles (fun _ => true)
        [[cl "foo", cl "a"], [cl "foobar", cl "b"]]
        [[cl "foo", cl "a"], [cl "foobar", cl "b"]] [cl "/foo/"] ∧
    (cl "foobar" :: [cl "b"]) ∉
      findExcludedFiles (fun _ => true)
        [[cl "foo", cl "a"], [cl "foobar", cl "b"]]
        [[cl "foo", cl "a"], [cl "foobar", cl "b"]] [cl "/foo/"] := by
  have h := findExcludedFiles_dirFoo (fun _ => true)
    [[cl "foo", cl "a"], [cl "foobar", cl "b"]]
    [[cl "foo", cl "a"], [cl "foobar", cl "b"]] (by decide)
  exact ⟨h.1,
    (h.2.1 [cl "foo", cl "a"]).mpr
      ⟨⟨[cl "a"], by decide, rfl⟩, by decide, by decide⟩,
    h.2.2 [cl "b"]⟩

/-- The worktree target path is strictly longer than the base directory,
so the two are never the same string. -/
lemma append_slash_ne (s t : String) : s ++ "/" ++ t ≠ s := by
  intro h
  have hdata : (s ++ "/" ++ t).data = s.data := congrArg String.data h
  rw [String.data_append, String.data_append] at hdata
  have hlen := congrArg List.length hdata
  rw [List.length_append, List.length_append] at hlen
  have hone : ("/" : String).data.length = 1 := rfl
  omega

/-- Erasing a freshly appended element restores the original list. -/
lemma erase_append_singleton (a : String) :
    ∀ l : List String, a ∉ l → (l ++ [a]).erase a = l := by
  intro l
  induction l with
  | nil =>
    intro _
    show [a].erase a = []
    rw [List.erase_cons_head]
  | cons b l ih =>
    intro h
    have hab : ¬ a = b := fun hh => h (by rw [hh]; exact List.mem_cons_self _ _)
    show (b :: (l ++ [a])).erase a = b :: l
    rw [List.erase_cons]
    rw [if_neg (fun hh : (b == a) = true => hab (eq_of_beq hh).symm)]
    rw [ih (fun hh => h (List.mem_cons_of_mem b hh))]

/-- Counting a freshly appended element that was absent yields one. -/
lemma count_append_singleton (a : String) (l : List String) (h : a ∉ l) :
    (l ++ [a]).count a = 1 := by
  rw [List.count_append, List.count_eq_zero.mpr h]
  simp

/-- Filtering away a path keeps a list of worktrees at other paths and
drops the freshly appended registration at that path. -/
lemma filter_keep_append (p br : String) :
    ∀ l : List Worktree, (∀ w ∈ l, w.path ≠ p) →
      (l ++ ([⟨p, br⟩] : List Worktree)).filter
        (fun w => !(w.path == p)) = l := by
  intro l
  induction l with
  | nil =>
    intro _
    show List.filter (fun w : Worktree => !(w.path == p))
      ([⟨p, br⟩] : List Worktree) = []
    simp [List.filter_cons]
  | cons w l ih =>
    intro h
    have hw : w.path ≠ p := h w (List.mem_cons_self _ _)
    show List.filter (fun w2 : Worktree => !(w2.path == p))
      (w :: (l ++ ([⟨p, br⟩] : List Worktree))) = w :: l
    rw [List.filter_cons]
    rw [if_pos (by simp [hw])]
    rw [ih (fun w2 hw2 => h w2 (List.mem_cons_of_mem w hw2))]

/-- Filtering for a path in a list of worktrees at other paths with a
fresh registration at that path appended yields just that registration. -/
lemma filter_path_append (p br : String) :
    ∀ l : List Worktree, (∀ w ∈ l, w.path ≠ p) →
      (l ++ ([⟨p, br⟩] : List Worktree)).filter
        (fun w => w.path == p) = [⟨p, br⟩] := by
  intro l
  induction l with
  | nil =>
    intro _
    show List.filter (fun w : Worktree => w.path == p)
      ([⟨p, br⟩] : List Worktree) = [⟨p, br⟩]
    simp [List.filter_cons]
  | cons w l ih =>
    intro h
    have hw : w.path ≠ p := h w (List.mem_cons_self _ _)
    show List.filter (fun w2 : Worktree => w2.path == p)
      (w :: (l ++ ([⟨p, br⟩] : List Worktree))) = [⟨p, br⟩]
    rw [List.filter_cons]
    rw [if_neg (by simp [hw])]
    rw [ih (fun w2 hw2 => h w2 (List.mem_cons_of_mem w hw2))]

/-- mkdir -p does not touch the worktree registrations. -/
lemma mkdirp_worktrees (d : String) (st : GitState) :
    (mkdirp d st).worktrees = st.worktrees := by
  unfold mkdirp
  split <;> rfl

/-- mkdir -p does not touch the branches. -/
lemma mkdirp_branches (d : String) (st : GitState) :
    (mkdirp d st).branches = st.branches := by
  unfold mkdirp
  split <;> rfl

/-- mkdir -p of an existing directory changes nothing. -/
lemma mkdirp_of_mem (d : String) (st : GitState) (h : d ∈ st.dirs) :
    mkdirp d st = st := by
  unfold mkdirp
  rw [if_pos h]

/-- mkdir -p makes its directory exist. -/
lemma self_mem_mkdirp_dirs (d : String) (st : GitState) :
    d ∈ (mkdirp d st).dirs := by
  unfold mkdirp
  by_cases h : d ∈ st.dirs
  · rw [if_pos h]
    exact h
  · rw [if_neg h]
    exact List.mem_append_right _ (by simp)

/-- Directories after mkdir -p are the old ones plus the created one. -/
lemma mem_mkdirp_dirs (d : String) (st : GitState) (x : String) :
    x ∈ (mkdirp d st).dirs ↔ x ∈ st.dirs ∨ x = d := by
  unfold mkdirp
  by_cases h : d ∈ st.dirs
  · rw [if_pos h]
    constructor
    · exact Or.inl
    · rintro (hx | hx)
      · exact hx
      · exact hx ▸ h
  · rw [if_neg h]
    show x ∈ st.dirs ++ [d] ↔ _
    rw [List.mem_append, List.mem_singleton]

/-- Claim C1: worktree creation is destructive-idempotent. From a state
with no prior worktree, checkout directory or branch for the name, and
with the base branch present, the first run creates the worktree at the
deterministic path with the namespaced branch; a second run forcibly
removes that worktree and branch and recreates them, ending in exactly
the same state, with exactly one worktree at the path and exactly one
branch of the name. -/
theorem createWorktree_idem (wb name base : String) (st : GitState)
    (hdir : wb ++ "/" ++ name ∉ st.dirs)
    (hbr : "bytree/" ++ name ∉ st.branches)
    (hbase : base ∈ st.branches)
    (hwt : ∀ w ∈ st.worktrees, w.path ≠ wb ++ "/" ++ name) :
    ∃ st1 : GitState,
      createWorktree wb name base st =
        .ok (st1, ⟨wb ++ "/" ++ name, "bytree/" ++ name⟩) ∧
      createWorktree wb name base st1 =
        .ok (st1, ⟨wb ++ "/" ++ name, "bytree/" ++ name⟩) ∧
      (st1.worktrees.filter
        (fun w => w.path == wb ++ "/" ++ name)).length = 1 ∧
      st1.branches.count ("bytree/" ++ name) = 1 := by
  have hworktrees := mkdirp_worktrees wb st
  have hbranches := mkdirp_branches wb st
  have hpm : (wb ++ "/" ++ name) ∉ (mkdirp wb st).dirs := by
    intro hmem
    rcases (mem_mkdirp_dirs wb st _).mp hmem with h | h
    · exact hdir h
    · exact append_slash_ne wb name h
  have hadd1 : worktreeAdd ("bytree/" ++ name) (wb ++ "/" ++ name) base
      (mkdirp wb st) =
      .ok ⟨st.worktrees ++ [⟨wb ++ "/" ++ name, "bytree/" ++ name⟩],
        st.branches ++ ["bytree/" ++ name],
        (mkdirp wb st).dirs ++ [wb ++ "/" ++ name]⟩ := by
    unfold worktreeAdd
    rw [if_neg]
    · rw [hworktrees, hbranches]
    · rintro (h | h | h)
      · rw [hbranches] at h
        exact hbr h
      · exact hpm h
      · rw [hbranches] at h
        exact h hbase
  refine ⟨⟨st.worktrees ++ [⟨wb ++ "/" ++ name, "bytree/" ++ name⟩],
    st.branches ++ ["bytree/" ++ name],
    (mkdirp wb st).dirs ++ [wb ++ "/" ++ name]⟩, ?_, ?_, ?_, ?_⟩
  · simp only [createWorktree]
    rw [if_neg hpm, hadd1]
  · have hm2 : mkdirp wb
        (⟨st.worktrees ++ [⟨wb ++ "/" ++ name, "bytree/" ++ name⟩],
          st.branches ++ ["bytree/" ++ name],
          (mkdirp wb st).dirs ++ [wb ++ "/" ++ name]⟩ : GitState) =
        ⟨st.worktrees ++ [⟨wb ++ "/" ++ name, "bytree/" ++ name⟩],
          st.branches ++ ["bytree/" ++ name],
          (mkdirp wb st).dirs ++ [wb ++ "/" ++ name]⟩ :=
      mkdirp_of_mem wb _
        (List.mem_append_left _ (self_mem_mkdirp_dirs wb st))
    simp only [createWorktree]
    rw [hm2, if_pos (List.mem_append_right _ (by simp))]
    have hclean : branchDelete ("bytree/" ++ name)
        (worktreeRemove (wb ++ "/" ++ name)
          ⟨st.worktrees ++ [⟨wb ++ "/" ++ name, "bytree/" ++ name⟩],
            st.branches ++ ["bytree/" ++ name],
            (mkdirp wb st).dirs ++ [wb ++ "/" ++ name]⟩) = mkdirp wb st := by
      unfold branchDelete worktreeRemove
      dsimp only
      rw [filter_keep_append _ _ _ hwt,
        erase_append_singleton _ _ hbr,
        erase_append_singleton _ _ hpm]
      rw [← hworktrees, ← hbranches]
    rw [hclean, hadd1]
  · dsimp only
    rw [filter_path_append _ _ _ hwt]
    rfl
  · dsimp only
    exact count_append_singleton _ _ hbr

/-- Witness for C1: in a one-branch repository, adding x twice ends with
the same state, one worktree at the target path and one tool branch. -/
theorem createWorktree_idem_witness :
    ∃ st1 : GitState,
      createWorktree "/w" "x" "main" ⟨[], ["main"], []⟩ =
        .ok (st1, ⟨"/w" ++ "/" ++ "x", "bytree/" ++ "x"⟩) ∧
      createWorktree "/w" "x" "main" st1 =
        .ok (st1, ⟨"/w" ++ "/" ++ "x", "bytree/" ++ "x"⟩) ∧
      (st1.worktrees.filter
        (fun w => w.path == "/w" ++ "/" ++ "x")).length = 1 ∧
      st1.branches.count ("bytree/" ++ "x") = 1 :=
  createWorktree_idem "/w" "x" "main" ⟨[], ["main"], []⟩
    (by decide) (by decide) (by decide) (by decide)

end Bytree
